import Mathlib

/-!
# Verification of a Huffman-coding library

Shallow embedding of the Rust sources (`src/errors.rs`, `src/nodes.rs`,
`src/utils.rs`) of a small Huffman-coding program, together with proofs of
the properties its specification states.

Modelling conventions:

* Rust `HashMap<char, V>` values are modelled as association lists
  `List (Char × V)`; the list order models the map's iteration order, and
  `HashMap::insert` / `HashMap::get` / `contains_key` are modelled by
  `mapInsert` / `mapGet` / `containsKey` below.
* `f32` probabilities are modelled as exact rationals `ℚ` wherever the code
  uses only field operations and comparisons (no rounding is modelled).  The
  single place where `f32` special values (±∞, NaN) are observable is
  `entropy`, whose `log2` call is modelled over `ℝ` extended with the IEEE
  special values (type `FVal` below).
* Rust `String` bitstrings (built from `"0"` / `"1"` pushes) are modelled as
  `List Char`.
* A Rust panic (`unwrap` on `None`) is modelled by an `Option` result being
  `none`; Rust `Result<T, E>` is `Except E T`.
-/

namespace HuffmanSpec

/-- The error enum of `errors.rs` (`SymbolMappingError`); note that it has
exactly these three variants and in particular no `EmptyAlphabet` variant. -/
inductive SymbolMappingError where
  | SymbolNotFoundInCodes (symbol : Char)
  | ExtraSymbolInCodes (symbol : Char)
  | UnknownSymbolInString
  deriving DecidableEq, Repr

/-- The tree node of `nodes.rs`: `struct Node { probability: f32, kind: NodeKind }`
with `NodeKind = Internal { left, right } | Leaf { symbol }`, flattened into a
single inductive.  `f32` probabilities are modelled as exact rationals. -/
inductive Node where
  | leaf (probability : ℚ) (symbol : Char)
  | internal (probability : ℚ) (left right : Node)
  deriving DecidableEq, Repr

/-- The `probability` field of a `Node`. -/
def Node.probability : Node → ℚ
  | .leaf p _ => p
  | .internal p _ _ => p

instance : Inhabited Node := ⟨Node.leaf 0 'A'⟩

/-- `a <= b` in the `Ord` impl of `nodes.rs`:
`cmp(self, other) = other.probability.partial_cmp(&self.probability).unwrap_or(Equal)`.
For non-NaN probabilities (all rationals) this is the reversed numeric order,
so `a <= b` holds iff `b.probability ≤ a.probability`; the reversal turns the
max-heap `std::collections::BinaryHeap` into a min-heap on probability. -/
def nodeLE (a b : Node) : Bool := decide (b.probability ≤ a.probability)

/-- `a < b` in the `Ord` impl of `nodes.rs` (see `nodeLE`). -/
def nodeLT (a b : Node) : Bool := decide (b.probability < a.probability)

/-- Read index `i` of the heap's backing vector (in-bounds reads only are
ever performed by the code; the default is irrelevant). -/
def getN (l : List Node) (i : Nat) : Node := l.getD i default

/-! ## The Rust `std::collections::BinaryHeap`

`huffman` relies on `BinaryHeap<Node>`: `collect` (= `From<Vec<_>>` plus
`rebuild`), `push` (append + `sift_up`) and `pop` (swap-remove the root +
`sift_down_to_bottom`).  The functions below are direct translations of the
`std` implementation; the `Hole` of the Rust code is modelled by keeping the
hole's element `e` and position `pos` explicit, with the entry of the list at
`pos` stale until it is overwritten by `List.set`. -/

/-- `BinaryHeap::sift_up(start, pos)` with hole element `e`: bubble the hole
towards the root while the element is greater (in `Node` order) than the
parent, then drop the element into the hole. -/
def siftUpGo (start : Nat) (l : List Node) (pos : Nat) (e : Node) : List Node :=
  if h : start < pos then
    if nodeLE e (getN l ((pos - 1) / 2)) then l.set pos e
    else siftUpGo start (l.set pos (getN l ((pos - 1) / 2))) ((pos - 1) / 2) e
  else l.set pos e
  termination_by pos
  decreasing_by exact Nat.lt_of_le_of_lt (Nat.div_le_self _ 2) (by omega)

/-- `child += (hole.get(child) <= hole.get(child + 1)) as usize`: the index of
the greater (in `Node` order, so least-probability) of the two children of
`pos`. -/
def childSel (l : List Node) (pos : Nat) : Nat :=
  if nodeLE (getN l (2 * pos + 1)) (getN l (2 * pos + 2)) then
    2 * pos + 2 else 2 * pos + 1

theorem childSel_bounds (l : List Node) (pos : Nat) :
    2 * pos + 1 ≤ childSel l pos ∧ childSel l pos ≤ 2 * pos + 2 := by
  unfold childSel; split <;> omega

/-- The hole-walking loop of `BinaryHeap::sift_down_to_bottom`: move the hole
to the greater child all the way to the bottom of the heap; returns the list
(entry at the final hole position stale) and the final hole position. -/
def siftDownBottomGo (endn : Nat) (l : List Node) (pos : Nat) : List Node × Nat :=
  if h : 2 * pos + 1 ≤ endn - 2 then
    siftDownBottomGo endn (l.set pos (getN l (childSel l pos))) (childSel l pos)
  else if 2 * pos + 1 = endn - 1 then
    (l.set pos (getN l (2 * pos + 1)), 2 * pos + 1)
  else (l, pos)
  termination_by endn - pos
  decreasing_by
    have := childSel_bounds l pos
    omega

/-- `BinaryHeap::sift_down_to_bottom(pos)`: take the element at `pos` out,
walk the hole to the bottom, then `sift_up` the element from there. -/
def siftDownToBottom (l : List Node) (pos : Nat) : List Node :=
  let e := getN l pos
  let r := siftDownBottomGo l.length l pos
  siftUpGo pos r.1 r.2 e

/-- `BinaryHeap::sift_down_range(pos, end)` with hole element `e`: move the
hole to the greater child while the element is smaller, stopping early when
the element is already in order. -/
def siftDownRangeGo (endn : Nat) (e : Node) (l : List Node) (pos : Nat) : List Node :=
  if h : 2 * pos + 1 ≤ endn - 2 then
    if nodeLE (getN l (childSel l pos)) e then l.set pos e
    else siftDownRangeGo endn e (l.set pos (getN l (childSel l pos))) (childSel l pos)
  else if 2 * pos + 1 = endn - 1 then
    if nodeLT e (getN l (2 * pos + 1)) then
      (l.set pos (getN l (2 * pos + 1))).set (2 * pos + 1) e
    else l.set pos e
  else l.set pos e
  termination_by endn - pos
  decreasing_by
    have := childSel_bounds l pos
    omega

/-- `BinaryHeap::sift_down(pos)` = `sift_down_range(pos, len)`. -/
def siftDown (l : List Node) (pos : Nat) : List Node :=
  siftDownRangeGo l.length (getN l pos) l pos

/-- The loop of `BinaryHeap::rebuild`: `n = len/2; while n > 0 { n -= 1; sift_down(n) }`. -/
def rebuildGo : Nat → List Node → List Node
  | 0, l => l
  | n + 1, l => rebuildGo n (siftDown l n)

/-- `BinaryHeap::from(vec)` (the target of `collect`): adopt the vector in
iteration order and `rebuild` it. -/
def heapFromList (l : List Node) : List Node := rebuildGo (l.length / 2) l

/-- `BinaryHeap::push(item)`: append, then `sift_up(0, old_len)`. -/
def heapPush (x : Node) (l : List Node) : List Node :=
  siftUpGo 0 (l ++ [x]) l.length x

/-- `BinaryHeap::pop()`: `Vec::pop` the last element; if the heap is still
non-empty, swap it with the root and `sift_down_to_bottom(0)`. -/
def heapPop (l : List Node) : Option (Node × List Node) :=
  match l.getLast? with
  | none => none
  | some last =>
    if l.dropLast.isEmpty then some (last, [])
    else some (getN l.dropLast 0, siftDownToBottom (l.dropLast.set 0 last) 0)

/-! ## The association-list model of `HashMap` -/

/-- `HashMap::insert(k, v)`: replace the value of an existing key in place,
otherwise add the new binding. -/
def mapInsert (k : Char) (v : α) : List (Char × α) → List (Char × α)
  | [] => [(k, v)]
  | (k', v') :: rest =>
    if k' = k then (k, v) :: rest else (k', v') :: mapInsert k v rest

/-- `HashMap::get(&k)`. -/
def mapGet (k : Char) : List (Char × α) → Option α
  | [] => none
  | (k', v) :: rest => if k' = k then some v else mapGet k rest

/-- `HashMap::contains_key(&k)`. -/
def containsKey (k : Char) (m : List (Char × α)) : Bool := (mapGet k m).isSome

/-! ## `utils.rs` -/

/-- `generate_codes(node, current_code, huffman_codes)` of `utils.rs`:
record the accumulated path at each leaf; descend left with `"0"` appended
and right with `"1"` appended. -/
def generate_codes : Node → List Char → List (Char × List Char) → List (Char × List Char)
  | .leaf _ symbol, current_code, huffman_codes =>
    mapInsert symbol current_code huffman_codes
  | .internal _ left right, current_code, huffman_codes =>
    generate_codes right (current_code ++ ['1'])
      (generate_codes left (current_code ++ ['0']) huffman_codes)

/-- The `while heap.len() > 1` merge loop of `huffman`, with explicit fuel
(the initial heap size, which bounds the number of merges).  Each iteration
pops the two least-probability nodes `a`, `b` (both `unwrap`ped: a `none`
pop would be a panic and is returned as-is, cutting the loop) and pushes an
internal node combining them. -/
def mergeLoopGo : Nat → List Node → List Node
  | 0, l => l
  | fuel + 1, l =>
    if l.length > 1 then
      match heapPop l with
      | none => l
      | some (a, l₁) =>
        match heapPop l₁ with
        | none => l₁
        | some (b, l₂) =>
          mergeLoopGo fuel
            (heapPush (.internal (a.probability + b.probability) a b) l₂)
    else l

/-- `huffman(probs)` of `utils.rs`: build a `BinaryHeap` of leaves in the
map's iteration order, merge until one node remains, `pop().unwrap()` the
root (a panic — `none` — on an empty table) and extract codes. -/
def huffman (probs : List (Char × ℚ)) : Option (List (Char × List Char)) :=
  let heap := heapFromList (probs.map fun p => Node.leaf p.2 p.1)
  let final := mergeLoopGo heap.length heap
  match heapPop final with
  | none => none
  | some (root, _) => some (generate_codes root [] [])

/-- `frequency(s)` of `utils.rs`: count occurrences of each character
(`*d.entry(symbol).or_insert(0) += 1`); counts are `i32`, modelled as `ℤ`. -/
def frequency (s : List Char) : List (Char × ℤ) :=
  s.foldl (fun d symbol =>
    match mapGet symbol d with
    | some n => mapInsert symbol (n + 1) d
    | none => mapInsert symbol 1 d) []

/-- `freq_to_prob(f)` of `utils.rs`: `sum` of all counts once, then each
count divided by it.  (For an empty map the loop body never runs, so the
division by the zero sum never happens.) -/
def freq_to_prob (f : List (Char × ℤ)) : List (Char × ℚ) :=
  let sum : ℚ := ((f.map Prod.snd).sum : ℤ)
  f.foldl (fun d p => mapInsert p.1 ((p.2 : ℚ) / sum) d) []

/-- `expected`'s first loop: for each `(symbol, freq)` of the probability
table, `c.get(&symbol).ok_or(SymbolNotFoundInCodes(symbol))?` and accumulate
`freq * code.len()`. -/
def expectedGo (c : List (Char × List Char)) :
    List (Char × ℚ) → ℚ → Except SymbolMappingError ℚ
  | [], total => .ok total
  | (symbol, freq) :: rest, total =>
    match mapGet symbol c with
    | none => .error (.SymbolNotFoundInCodes symbol)
    | some code => expectedGo c rest (total + freq * (code.length : ℚ))

/-- `expected`'s second loop: the first key of `c` that `f` does not contain,
if any (`return Err(ExtraSymbolInCodes(symbol))`). -/
def firstExtra (f : List (Char × ℚ)) : List Char → Option Char
  | [] => none
  | symbol :: rest =>
    if containsKey symbol f then firstExtra f rest else some symbol

/-- `expected(f, c)` of `utils.rs`: the two loops in sequence. -/
def expected (f : List (Char × ℚ)) (c : List (Char × List Char)) :
    Except SymbolMappingError ℚ :=
  match expectedGo c f 0 with
  | .error e => .error e
  | .ok total =>
    match firstExtra f (c.map Prod.fst) with
    | some symbol => .error (.ExtraSymbolInCodes symbol)
    | none => .ok total

/-! ## `entropy` and its IEEE model

`entropy` is the one function whose behaviour involves `f32` special values:
`value.log2()` is `-∞` at `0` and NaN on negatives, and `0.0 * ∞` is NaN.
Finite `f32` values are idealised as exact numbers (the table entries as `ℚ`,
the transcendental `log2` results as `ℝ`), while the special values and their
propagation rules follow IEEE 754. -/

/-- An `f32` value that can be NaN or infinite: the codomain of the `entropy`
accumulation. -/
inductive FVal where
  | nan
  | inf
  | ninf
  | num (x : ℝ)

/-- `f32::log2`: `-∞` at `0`, NaN on negatives, the real logarithm base 2 on
positive values. -/
noncomputable def flog2 (x : ℚ) : FVal :=
  if x < 0 then .nan else if x = 0 then .ninf else .num (Real.logb 2 (x : ℝ))

/-- IEEE negation of an `f32` value. -/
noncomputable def fneg : FVal → FVal
  | .nan => .nan
  | .inf => .ninf
  | .ninf => .inf
  | .num x => .num (-x)

/-- IEEE multiplication of a finite value by an `f32` value
(`0 * ±∞` is NaN). -/
noncomputable def fmul (x : ℚ) : FVal → FVal
  | .nan => .nan
  | .inf => if 0 < x then .inf else if x < 0 then .ninf else .nan
  | .ninf => if 0 < x then .ninf else if x < 0 then .inf else .nan
  | .num y => .num ((x : ℝ) * y)

/-- IEEE addition of `f32` values (`∞ + (-∞)` is NaN, NaN propagates). -/
noncomputable def fadd : FVal → FVal → FVal
  | .nan, _ => .nan
  | _, .nan => .nan
  | .inf, .ninf => .nan
  | .ninf, .inf => .nan
  | .inf, _ => .inf
  | _, .inf => .inf
  | .ninf, _ => .ninf
  | _, .ninf => .ninf
  | .num x, .num y => .num (x + y)

/-- `entropy(f)` of `utils.rs`: `total = 0.0; for value { total += value * -value.log2() }`. -/
noncomputable def entropy (f : List (Char × ℚ)) : FVal :=
  f.foldl (fun total p => fadd total (fmul p.2 (fneg (flog2 p.2)))) (.num 0)

/-! ## Proof-side helper definitions -/

/-- The multiset of symbols at the leaves of a tree. -/
def Node.syms : Node → Multiset Char
  | .leaf _ s => {s}
  | .internal _ a b => a.syms + b.syms

/-- The multiset of all leaf symbols stored in a heap. -/
def heapSyms (l : List Node) : Multiset Char :=
  ((l : Multiset Node).map Node.syms).sum

/-- The codes `generate_codes` records, as a plain list of
`(symbol, path)` pairs in traversal order. -/
def leafCodes : Node → List Char → List (Char × List Char)
  | .leaf _ s, pre => [(s, pre)]
  | .internal _ a b, pre =>
    leafCodes a (pre ++ ['0']) ++ leafCodes b (pre ++ ['1'])

/-! ## Basic lemmas about the backing vector -/

theorem getN_set_ne {i j : Nat} (h : i ≠ j) (l : List Node) (x : Node) :
    getN (l.set i x) j = getN l j := by
  induction l generalizing i j with
  | nil => rfl
  | cons a t ih =>
    cases i with
    | zero => cases j with
      | zero => exact absurd rfl h
      | succ j => rfl
    | succ i => cases j with
      | zero => rfl
      | succ j => exact ih (by omega)

theorem getN_set_eq {i : Nat} (l : List Node) (h : i < l.length) (x : Node) :
    getN (l.set i x) i = x := by
  induction l generalizing i with
  | nil => simp at h
  | cons a t ih =>
    cases i with
    | zero => rfl
    | succ i => exact ih (by simpa using h)

theorem getN_append_right (l : List Node) (x : Node) :
    getN (l ++ [x]) l.length = x := by
  induction l with
  | nil => rfl
  | cons a t ih => exact ih

/-- Overwriting position `i` exchanges the old entry for the new one in the
multiset of entries. -/
theorem multiset_set (l : List Node) (i : Nat) (h : i < l.length) (x : Node) :
    ((l.set i x : List Node) : Multiset Node) + {getN l i}
      = (l : Multiset Node) + {x} := by
  induction l generalizing i with
  | nil => simp at h
  | cons a t ih =>
    cases i with
    | zero =>
      show ((x :: t : List Node) : Multiset Node) + {a} = _
      simp only [← Multiset.cons_coe, Multiset.cons_add]
      rw [add_comm ((t : Multiset Node)) {a}, add_comm ((t : Multiset Node)) {x}]
      simp only [Multiset.singleton_add]
      exact Multiset.cons_swap x a (t : Multiset Node)
    | succ i =>
      show ((a :: t.set i x : List Node) : Multiset Node) + {getN t i} = _
      simp only [← Multiset.cons_coe, Multiset.cons_add]
      rw [ih i (by simpa using h)]

/-! ## Length and multiset behaviour of the sift operations -/

theorem siftUpGo_length (start : Nat) (l : List Node) (pos : Nat) (e : Node) :
    (siftUpGo start l pos e).length = l.length := by
  induction l, pos, e using siftUpGo.induct start with
  | case1 l pos e h hle => rw [siftUpGo]; simp [h, hle]
  | case2 l pos e h hle ih =>
    rw [siftUpGo]; simp only [h, dif_pos]
    rw [if_neg (by simp [hle])]
    simpa using ih
  | case3 l pos e h => rw [siftUpGo]; simp [h]

theorem siftUpGo_multiset (start : Nat) (l : List Node) (pos : Nat) (e : Node)
    (hpos : pos < l.length) :
    ((siftUpGo start l pos e : List Node) : Multiset Node) + {getN l pos}
      = (l : Multiset Node) + {e} := by
  induction l, pos, e using siftUpGo.induct start with
  | case1 l pos e h hle =>
    rw [siftUpGo]; simp only [h, dif_pos]
    rw [if_pos hle]
    exact multiset_set l pos hpos e
  | case2 l pos e h hle ih =>
    rw [siftUpGo]; simp only [h, dif_pos]
    rw [if_neg (by simp [hle])]
    have hparent : (pos - 1) / 2 < pos := Nat.lt_of_le_of_lt (Nat.div_le_self _ 2) (by omega)
    have h1 := ih (by simp only [List.length_set]; exact Nat.lt_trans hparent hpos)
    rw [getN_set_ne (by omega) l (getN l ((pos - 1) / 2))] at h1
    have h2 := multiset_set l pos hpos (getN l ((pos - 1) / 2))
    refine add_right_cancel (b := ({getN l ((pos - 1) / 2)} : Multiset Node)) ?_
    calc ((siftUpGo start (l.set pos (getN l ((pos - 1) / 2))) ((pos - 1) / 2) e : List Node) : Multiset Node)
          + {getN l pos} + {getN l ((pos - 1) / 2)}
        = ((siftUpGo start (l.set pos (getN l ((pos - 1) / 2))) ((pos - 1) / 2) e : List Node) : Multiset Node)
          + {getN l ((pos - 1) / 2)} + {getN l pos} := by rw [add_right_comm]
      _ = ((l.set pos (getN l ((pos - 1) / 2)) : List Node) : Multiset Node) + {e} + {getN l pos} := by
            rw [h1]
      _ = ((l.set pos (getN l ((pos - 1) / 2)) : List Node) : Multiset Node) + {getN l pos} + {e} := by
            rw [add_right_comm]
      _ = (l : Multiset Node) + {getN l ((pos - 1) / 2)} + {e} := by rw [h2]
      _ = (l : Multiset Node) + {e} + {getN l ((pos - 1) / 2)} := by rw [add_right_comm]
  | case3 l pos e h =>
    rw [siftUpGo]; simp only [h, dif_neg, not_false_eq_true]
    exact multiset_set l pos hpos e

/-- The hole walk of `sift_down_to_bottom` preserves length, moves the hole
downwards within `endn`, and permutes entries: the multiset of entries other
than the hole is unchanged. -/
theorem siftDownBottomGo_spec (endn : Nat) (l : List Node) (pos : Nat)
    (hpos : pos < endn) (hend : endn ≤ l.length) :
    (siftDownBottomGo endn l pos).1.length = l.length ∧
    pos ≤ (siftDownBottomGo endn l pos).2 ∧
    (siftDownBottomGo endn l pos).2 < endn ∧
    ((siftDownBottomGo endn l pos).1 : Multiset Node) + {getN l pos}
      = (l : Multiset Node)
        + {getN (siftDownBottomGo endn l pos).1 (siftDownBottomGo endn l pos).2} := by
  induction l, pos using siftDownBottomGo.induct endn with
  | case1 l pos h ih =>
    have hc := childSel_bounds l pos
    rw [siftDownBottomGo, dif_pos h]
    have hcend : childSel l pos < endn := by omega
    have hcl : childSel l pos < (l.set pos (getN l (childSel l pos))).length := by
      simp only [List.length_set]; omega
    obtain ⟨ih1, ih2, ih3, ih4⟩ := ih hcend (by simpa using hend)
    refine ⟨by simpa using ih1, ?_, ih3, ?_⟩
    · omega
    rw [getN_set_ne (by omega) l (getN l (childSel l pos))] at ih4
    have h2 := multiset_set l pos (by omega) (getN l (childSel l pos))
    refine add_right_cancel (b := ({getN l (childSel l pos)} : Multiset Node)) ?_
    calc ((siftDownBottomGo endn (l.set pos (getN l (childSel l pos))) (childSel l pos)).1
            : Multiset Node) + {getN l pos} + {getN l (childSel l pos)}
        = ((siftDownBottomGo endn (l.set pos (getN l (childSel l pos))) (childSel l pos)).1
            : Multiset Node) + {getN l (childSel l pos)} + {getN l pos} := by rw [add_right_comm]
      _ = ((l.set pos (getN l (childSel l pos)) : List Node) : Multiset Node)
            + {getN (siftDownBottomGo endn (l.set pos (getN l (childSel l pos)))
                (childSel l pos)).1
                (siftDownBottomGo endn (l.set pos (getN l (childSel l pos)))
                (childSel l pos)).2} + {getN l pos} := by rw [ih4]
      _ = ((l.set pos (getN l (childSel l pos)) : List Node) : Multiset Node) + {getN l pos}
            + {getN (siftDownBottomGo endn (l.set pos (getN l (childSel l pos)))
                (childSel l pos)).1
                (siftDownBottomGo endn (l.set pos (getN l (childSel l pos)))
                (childSel l pos)).2} := by rw [add_right_comm]
      _ = (l : Multiset Node) + {getN l (childSel l pos)}
            + {getN (siftDownBottomGo endn (l.set pos (getN l (childSel l pos)))
                (childSel l pos)).1
                (siftDownBottomGo endn (l.set pos (getN l (childSel l pos)))
                (childSel l pos)).2} := by rw [h2]
      _ = _ := by rw [add_right_comm]
  | case2 l pos h h2 =>
    rw [siftDownBottomGo, dif_neg h, if_pos h2]
    have hc : 2 * pos + 1 < endn := by omega
    refine ⟨by simp, by omega, by omega, ?_⟩
    show _ = (l : Multiset Node) + {getN (l.set pos (getN l (2 * pos + 1))) (2 * pos + 1)}
    rw [getN_set_ne (by omega) l (getN l (2 * pos + 1))]
    exact multiset_set l pos (by omega) (getN l (2 * pos + 1))
  | case3 l pos h h2 =>
    rw [siftDownBottomGo, dif_neg h, if_neg h2]
    exact ⟨rfl, le_refl _, hpos, rfl⟩

/-- `sift_down_to_bottom` permutes the heap entries. -/
theorem siftDownToBottom_multiset (l : List Node) (pos : Nat) (hpos : pos < l.length) :
    ((siftDownToBottom l pos : List Node) : Multiset Node) = (l : Multiset Node) ∧
    (siftDownToBottom l pos).length = l.length := by
  obtain ⟨h1, h2, h3, h4⟩ := siftDownBottomGo_spec l.length l pos hpos (le_refl _)
  unfold siftDownToBottom
  constructor
  · have h5 := siftUpGo_multiset pos (siftDownBottomGo l.length l pos).1
      (siftDownBottomGo l.length l pos).2 (getN l pos) (by omega)
    rw [h4] at h5
    exact add_right_cancel h5
  · rw [siftUpGo_length, h1]

/-- `sift_down_range` preserves length and permutes: the result holds the
same entries as the list with the hole filled by `e`. -/
theorem siftDownRangeGo_spec (endn : Nat) (e : Node) (l : List Node) (pos : Nat)
    (hpos : pos < endn) (hend : endn ≤ l.length) :
    (siftDownRangeGo endn e l pos).length = l.length ∧
    ((siftDownRangeGo endn e l pos : List Node) : Multiset Node) + {getN l pos}
      = (l : Multiset Node) + {e} := by
  induction l, pos using siftDownRangeGo.induct endn e with
  | case1 l pos h hle =>
    rw [siftDownRangeGo, dif_pos h, if_pos hle]
    exact ⟨by simp, multiset_set l pos (by omega) e⟩
  | case2 l pos h hle ih =>
    have hc := childSel_bounds l pos
    rw [siftDownRangeGo, dif_pos h, if_neg (by simp [hle])]
    obtain ⟨ih1, ih2⟩ := ih (by omega) (by simpa using hend)
    refine ⟨by simpa using ih1, ?_⟩
    rw [getN_set_ne (by omega) l (getN l (childSel l pos))] at ih2
    have h2 := multiset_set l pos (by omega) (getN l (childSel l pos))
    refine add_right_cancel (b := ({getN l (childSel l pos)} : Multiset Node)) ?_
    calc ((siftDownRangeGo endn e (l.set pos (getN l (childSel l pos))) (childSel l pos)
            : List Node) : Multiset Node) + {getN l pos} + {getN l (childSel l pos)}
        = ((siftDownRangeGo endn e (l.set pos (getN l (childSel l pos))) (childSel l pos)
            : List Node) : Multiset Node) + {getN l (childSel l pos)} + {getN l pos} := by
            rw [add_right_comm]
      _ = ((l.set pos (getN l (childSel l pos)) : List Node) : Multiset Node) + {e}
            + {getN l pos} := by rw [ih2]
      _ = ((l.set pos (getN l (childSel l pos)) : List Node) : Multiset Node) + {getN l pos}
            + {e} := by rw [add_right_comm]
      _ = (l : Multiset Node) + {getN l (childSel l pos)} + {e} := by rw [h2]
      _ = (l : Multiset Node) + {e} + {getN l (childSel l pos)} := by rw [add_right_comm]
  | case3 l pos h h2 hlt =>
    rw [siftDownRangeGo, dif_neg h, if_pos h2, if_pos hlt]
    have hc : 2 * pos + 1 < endn := by omega
    have hb : 2 * pos + 1 < l.length := by omega
    constructor
    · simp
    · have hm1 := multiset_set l pos (by omega) (getN l (2 * pos + 1))
      have hm2 := multiset_set (l.set pos (getN l (2 * pos + 1)))
        (2 * pos + 1) (by simpa using hb) e
      rw [getN_set_ne (by omega) l (getN l (2 * pos + 1))] at hm2
      refine add_right_cancel (b := ({getN l (2 * pos + 1)} : Multiset Node)) ?_
      calc (((l.set pos (getN l (2 * pos + 1))).set (2 * pos + 1) e : List Node)
              : Multiset Node) + {getN l pos} + {getN l (2 * pos + 1)}
          = (((l.set pos (getN l (2 * pos + 1))).set (2 * pos + 1) e : List Node)
              : Multiset Node) + {getN l (2 * pos + 1)} + {getN l pos} := by rw [add_right_comm]
        _ = ((l.set pos (getN l (2 * pos + 1)) : List Node) : Multiset Node) + {e}
              + {getN l pos} := by rw [hm2]
        _ = ((l.set pos (getN l (2 * pos + 1)) : List Node) : Multiset Node) + {getN l pos}
              + {e} := by rw [add_right_comm]
        _ = (l : Multiset Node) + {getN l (2 * pos + 1)} + {e} := by rw [hm1]
        _ = (l : Multiset Node) + {e} + {getN l (2 * pos + 1)} := by rw [add_right_comm]
  | case4 l pos h h2 hlt =>
    rw [siftDownRangeGo, dif_neg h, if_pos h2, if_neg hlt]
    exact ⟨by simp, multiset_set l pos (by omega) e⟩
  | case5 l pos h h2 =>
    rw [siftDownRangeGo, dif_neg h, if_neg h2]
    exact ⟨by simp, multiset_set l pos (by omega) e⟩

/-- `sift_down` permutes the heap entries. -/
theorem siftDown_multiset (l : List Node) (pos : Nat) (hpos : pos < l.length) :
    ((siftDown l pos : List Node) : Multiset Node) = (l : Multiset Node) ∧
    (siftDown l pos).length = l.length := by
  obtain ⟨h1, h2⟩ := siftDownRangeGo_spec l.length (getN l pos) l pos hpos (le_refl _)
  exact ⟨add_right_cancel h2, h1⟩

/-- `rebuild` permutes the heap entries. -/
theorem rebuildGo_multiset (n : Nat) (l : List Node) (hn : n ≤ l.length) :
    ((rebuildGo n l : List Node) : Multiset Node) = (l : Multiset Node) ∧
    (rebuildGo n l).length = l.length := by
  induction n generalizing l with
  | zero => exact ⟨rfl, rfl⟩
  | succ n ih =>
    obtain ⟨h1, h2⟩ := siftDown_multiset l n (by omega)
    obtain ⟨ih1, ih2⟩ := ih (siftDown l n) (by omega)
    refine ⟨?_, ?_⟩
    · show ((rebuildGo n (siftDown l n) : List Node) : Multiset Node) = _
      rw [ih1, h1]
    · show (rebuildGo n (siftDown l n)).length = _
      rw [ih2, h2]

/-- `BinaryHeap::from(vec)` permutes the entries of the vector. -/
theorem heapFromList_multiset (l : List Node) :
    ((heapFromList l : List Node) : Multiset Node) = (l : Multiset Node) ∧
    (heapFromList l).length = l.length :=
  rebuildGo_multiset (l.length / 2) l (Nat.div_le_self _ 2)

/-- `BinaryHeap::push` adds exactly the pushed entry. -/
theorem heapPush_multiset (x : Node) (l : List Node) :
    ((heapPush x l : List Node) : Multiset Node) = (l : Multiset Node) + {x} ∧
    (heapPush x l).length = l.length + 1 := by
  unfold heapPush
  constructor
  · have h := siftUpGo_multiset 0 (l ++ [x]) l.length x (by simp)
    rw [getN_append_right] at h
    have h2 : ((l ++ [x] : List Node) : Multiset Node) = (l : Multiset Node) + {x} := by
      rw [← Multiset.coe_add]; rfl
    rw [h2] at h
    exact add_right_cancel h
  · rw [siftUpGo_length]; simp

/-- A successful `BinaryHeap::pop` removes exactly the returned entry. -/
theorem heapPop_multiset (l : List Node) (x : Node) (l' : List Node)
    (h : heapPop l = some (x, l')) :
    (l' : Multiset Node) + {x} = (l : Multiset Node) := by
  unfold heapPop at h
  split at h
  · exact Option.noConfusion h
  next last hl =>
    have hne : l ≠ [] := by rintro rfl; simp at hl
    have hlast : l.getLast hne = last := by
      have h0 := List.getLast?_eq_getLast l hne
      rw [hl] at h0
      exact (Option.some_inj.mp h0).symm
    have hdecomp : l.dropLast ++ [last] = l := by
      rw [← hlast]; exact List.dropLast_append_getLast hne
    split at h
    next hrest =>
      obtain ⟨rfl, rfl⟩ := Prod.ext_iff.mp (Option.some_inj.mp h)
      have hd : l.dropLast = [] := by simpa using hrest
      rw [← hdecomp, hd]
      simp
    next hrest =>
      have hrestlen : 0 < l.dropLast.length := by
        have : l.dropLast ≠ [] := by simpa using hrest
        exact List.length_pos.mpr this
      obtain ⟨rfl, rfl⟩ := Prod.ext_iff.mp (Option.some_inj.mp h)
      obtain ⟨hm, _⟩ := siftDownToBottom_multiset (l.dropLast.set 0 last) 0
        (by simpa using hrestlen)
      rw [hm]
      have hms := multiset_set l.dropLast 0 hrestlen last
      calc ((l.dropLast.set 0 last : List Node) : Multiset Node) + {getN l.dropLast 0}
          = (l.dropLast : Multiset Node) + {last} := hms
        _ = ((l.dropLast ++ [last] : List Node) : Multiset Node) := by
            rw [← Multiset.coe_add]; rfl
        _ = (l : Multiset Node) := by rw [hdecomp]

theorem heapPop_length (l : List Node) (x : Node) (l' : List Node)
    (h : heapPop l = some (x, l')) : l'.length + 1 = l.length := by
  have hm := heapPop_multiset l x l' h
  have hc := congrArg Multiset.card hm
  simpa using hc

theorem heapPop_isSome (l : List Node) (h : l ≠ []) : (heapPop l).isSome = true := by
  unfold heapPop
  rw [List.getLast?_eq_getLast l h]
  show (if l.dropLast.isEmpty then some (l.getLast h, ([] : List Node))
    else some (getN l.dropLast 0,
      siftDownToBottom (l.dropLast.set 0 (l.getLast h)) 0)).isSome = true
  split <;> rfl

/-! ## The leaf-symbol multiset through the merge loop -/

theorem heapSyms_cons (x : Node) (l : List Node) :
    heapSyms (x :: l) = Node.syms x + heapSyms l := by
  unfold heapSyms
  rw [← Multiset.cons_coe, Multiset.map_cons, Multiset.sum_cons]

theorem heapSyms_congr {l₁ l₂ : List Node} (h : (l₁ : Multiset Node) = (l₂ : Multiset Node)) :
    heapSyms l₁ = heapSyms l₂ := by
  unfold heapSyms; rw [h]

theorem heapSyms_push (x : Node) (l : List Node) :
    heapSyms (heapPush x l) = Node.syms x + heapSyms l := by
  obtain ⟨hm, _⟩ := heapPush_multiset x l
  unfold heapSyms
  rw [hm, Multiset.map_add, Multiset.sum_add]
  simp [add_comm]

theorem heapSyms_pop (l : List Node) (x : Node) (l' : List Node)
    (h : heapPop l = some (x, l')) :
    heapSyms l = Node.syms x + heapSyms l' := by
  have hm := heapPop_multiset l x l' h
  unfold heapSyms
  rw [← hm, Multiset.map_add, Multiset.sum_add]
  simp [add_comm]

theorem heapSyms_leaves (f : List (Char × ℚ)) :
    heapSyms (f.map fun p => Node.leaf p.2 p.1)
      = ((f.map Prod.fst : List Char) : Multiset Char) := by
  induction f with
  | nil => rfl
  | cons a t ih =>
    rw [List.map_cons, heapSyms_cons, ih, List.map_cons, ← Multiset.cons_coe]
    show {a.1} + _ = _
    rw [Multiset.singleton_add]

theorem mergeLoopGo_small (fuel : Nat) (l : List Node) (h : ¬ 1 < l.length) :
    mergeLoopGo fuel l = l := by
  cases fuel with
  | zero => rfl
  | succ fuel => rw [mergeLoopGo, if_neg h]

/-- With enough fuel (one unit per merge), the merge loop reduces any
non-empty heap to a single node, preserves the leaf-symbol multiset, and
— when the heap started with at least two nodes — ends in an internal node. -/
theorem mergeLoopGo_spec (fuel : Nat) : ∀ l : List Node, l.length ≤ fuel + 1 →
    1 ≤ l.length →
    (mergeLoopGo fuel l).length = 1 ∧ heapSyms (mergeLoopGo fuel l) = heapSyms l ∧
    (2 ≤ l.length → ∃ p a b, mergeLoopGo fuel l = [Node.internal p a b]) := by
  induction fuel with
  | zero =>
    intro l h1 h2
    refine ⟨?_, rfl, ?_⟩
    · show l.length = 1
      omega
    · intro hh
      exact absurd hh (by omega)
  | succ fuel ih =>
    intro l h1 h2
    by_cases hlen : 1 < l.length
    · have hne : l ≠ [] := by
        intro hl; rw [hl] at hlen; simp at hlen
      cases hp1 : heapPop l with
      | none =>
        have := heapPop_isSome l hne
        rw [hp1] at this; simp at this
      | some v =>
        obtain ⟨a, l₁⟩ := v
        have hlen1 := heapPop_length l a l₁ hp1
        have hne1 : l₁ ≠ [] := by
          intro hl; rw [hl] at hlen1; simp at hlen1; omega
        cases hp2 : heapPop l₁ with
        | none =>
          have := heapPop_isSome l₁ hne1
          rw [hp2] at this; simp at this
        | some w =>
          obtain ⟨b, l₂⟩ := w
          have hlen2 := heapPop_length l₁ b l₂ hp2
          rw [mergeLoopGo, if_pos hlen]
          simp only [hp1, hp2]
          have hpushlen :
              (heapPush (Node.internal (a.probability + b.probability) a b) l₂).length
                = l₂.length + 1 := (heapPush_multiset _ _).2
          obtain ⟨ihl, ihs, ihi⟩ :=
            ih (heapPush (Node.internal (a.probability + b.probability) a b) l₂)
              (by omega) (by omega)
          refine ⟨ihl, ?_, fun _ => ?_⟩
          · rw [ihs, heapSyms_push, heapSyms_pop l a l₁ hp1, heapSyms_pop l₁ b l₂ hp2]
            show Node.syms a + Node.syms b + _ = _
            rw [add_assoc]
          · by_cases h2' : 2 ≤ (heapPush (Node.internal (a.probability + b.probability) a b) l₂).length
            · exact ihi h2'
            · have hl2 : l₂ = [] := by
                have : l₂.length = 0 := by omega
                exact List.length_eq_zero.mp this
              refine ⟨a.probability + b.probability, a, b, ?_⟩
              rw [mergeLoopGo_small fuel _ (by omega), hl2]
              show siftUpGo 0 ([] ++ [Node.internal (a.probability + b.probability) a b]) 0
                (Node.internal (a.probability + b.probability) a b) = _
              rw [siftUpGo, dif_neg (by omega)]
              rfl
    · rw [mergeLoopGo, if_neg hlen]
      exact ⟨by omega, rfl, fun hh => absurd hh (by omega)⟩

/-- Structure of a successful `huffman` run: on a non-empty table the heap
collapses to a single root whose leaves carry exactly the table's keys, and
the root is an internal node as soon as the table has two entries. -/
theorem huffman_structure (f : List (Char × ℚ)) (hne : f ≠ []) :
    ∃ root : Node, huffman f = some (generate_codes root [] []) ∧
      Node.syms root = ((f.map Prod.fst : List Char) : Multiset Char) ∧
      (2 ≤ f.length → ∃ p a b, root = Node.internal p a b) := by
  obtain ⟨hfm, hfl⟩ := heapFromList_multiset (f.map fun p => Node.leaf p.2 p.1)
  have hxlen : (f.map fun p => Node.leaf p.2 p.1).length = f.length := by simp
  have hflen : 1 ≤ f.length := List.length_pos.mpr hne
  obtain ⟨hml, hms, hint⟩ :=
    mergeLoopGo_spec (heapFromList (f.map fun p => Node.leaf p.2 p.1)).length
      (heapFromList (f.map fun p => Node.leaf p.2 p.1)) (by omega) (by omega)
  obtain ⟨root, hroot⟩ := List.length_eq_one.mp hml
  refine ⟨root, ?_, ?_, ?_⟩
  · unfold huffman
    simp only [hroot]
    rfl
  · have h1 : heapSyms [root] = Node.syms root := by
      rw [heapSyms_cons]
      show _ + heapSyms [] = _
      show _ + 0 = _
      rw [add_zero]
    rw [← h1, ← hroot, hms, heapSyms_congr hfm, heapSyms_leaves]
  · intro h2
    obtain ⟨p, a, b, hint'⟩ := hint (by omega)
    rw [hroot] at hint'
    injection hint' with h1 h2
    exact ⟨p, a, b, h1⟩

/-! ## Lemmas about the association-list maps -/

theorem mapGet_mapInsert (k k' : Char) (v : α) (m : List (Char × α)) :
    mapGet k' (mapInsert k v m) = if k = k' then some v else mapGet k' m := by
  induction m with
  | nil =>
    show (if k = k' then some v else none) = if k = k' then some v else none
    rfl
  | cons a t ih =>
    obtain ⟨ka, va⟩ := a
    show mapGet k' (if ka = k then (k, v) :: t else (ka, va) :: mapInsert k v t) = _
    by_cases hka : ka = k
    · rw [if_pos hka]
      subst hka
      show (if ka = k' then some v else mapGet k' t) = _
      by_cases hk' : ka = k'
      · rw [if_pos hk', if_pos hk']
      · rw [if_neg hk', if_neg hk']
        rw [show mapGet k' ((ka, va) :: t) = if ka = k' then some va else mapGet k' t from rfl]
        rw [if_neg hk']
    · rw [if_neg hka]
      show (if ka = k' then some va else mapGet k' (mapInsert k v t)) = _
      by_cases hka' : ka = k'
      · rw [if_pos hka', if_neg (fun hkk => hka (hka'.trans hkk.symm))]
        rw [show mapGet k' ((ka, va) :: t) = if ka = k' then some va else mapGet k' t from rfl]
        rw [if_pos hka']
      · rw [if_neg hka', ih]
        rw [show mapGet k' ((ka, va) :: t) = if ka = k' then some va else mapGet k' t from rfl]
        rw [if_neg hka']

theorem mem_mapInsert (x : Char × α) (k : Char) (v : α) (m : List (Char × α))
    (h : x ∈ mapInsert k v m) : x = (k, v) ∨ x ∈ m := by
  induction m with
  | nil => simpa [mapInsert] using h
  | cons a t ih =>
    obtain ⟨ka, va⟩ := a
    rw [show mapInsert k v ((ka, va) :: t)
      = if ka = k then (k, v) :: t else (ka, va) :: mapInsert k v t from rfl] at h
    by_cases hka : ka = k
    · rw [if_pos hka] at h
      rcases List.mem_cons.mp h with h | h
      · exact Or.inl h
      · exact Or.inr (List.mem_cons_of_mem _ h)
    · rw [if_neg hka] at h
      rcases List.mem_cons.mp h with h | h
      · exact Or.inr (h ▸ List.mem_cons_self _ _)
      · rcases ih h with h | h
        · exact Or.inl h
        · exact Or.inr (List.mem_cons_of_mem _ h)

theorem keys_mapInsert (k : Char) (v : α) (m : List (Char × α)) (a : Char)
    (h : a ∈ (mapInsert k v m).map Prod.fst) : a = k ∨ a ∈ m.map Prod.fst := by
  rcases List.mem_map.mp h with ⟨x, hx, rfl⟩
  rcases mem_mapInsert x k v m hx with rfl | hxm
  · exact Or.inl rfl
  · exact Or.inr (List.mem_map_of_mem _ hxm)

theorem containsKey_mapInsert (k k' : Char) (v : α) (m : List (Char × α)) :
    containsKey k' (mapInsert k v m) = true ↔ k = k' ∨ containsKey k' m = true := by
  unfold containsKey
  rw [mapGet_mapInsert]
  by_cases hk : k = k'
  · simp [hk]
  · simp [hk]

theorem keysNodup_mapInsert (k : Char) (v : α) (m : List (Char × α))
    (h : (m.map Prod.fst).Nodup) : ((mapInsert k v m).map Prod.fst).Nodup := by
  induction m with
  | nil => simp [mapInsert]
  | cons a t ih =>
    obtain ⟨ka, va⟩ := a
    rw [show mapInsert k v ((ka, va) :: t)
      = if ka = k then (k, v) :: t else (ka, va) :: mapInsert k v t from rfl]
    simp only [List.map_cons, List.nodup_cons] at h
    by_cases hka : ka = k
    · rw [if_pos hka]
      simp only [List.map_cons, List.nodup_cons]
      exact ⟨hka ▸ h.1, h.2⟩
    · rw [if_neg hka]
      simp only [List.map_cons, List.nodup_cons]
      refine ⟨fun hmem => ?_, ih h.2⟩
      rcases keys_mapInsert k v t ka hmem with rfl | hmem'
      · exact hka rfl
      · exact h.1 hmem'

/-! ## `generate_codes` versus the plain traversal `leafCodes` -/

theorem mem_generate_codes (t : Node) (pre : List Char)
    (acc : List (Char × List Char)) (x : Char × List Char)
    (h : x ∈ generate_codes t pre acc) : x ∈ acc ∨ x ∈ leafCodes t pre := by
  induction t generalizing pre acc with
  | leaf p s =>
    rcases mem_mapInsert x s pre acc h with rfl | hm
    · exact Or.inr (by simp [leafCodes])
    · exact Or.inl hm
  | internal p a b iha ihb =>
    rcases ihb (pre ++ ['1']) _ h with h' | h'
    · rcases iha (pre ++ ['0']) _ h' with h'' | h''
      · exact Or.inl h''
      · exact Or.inr (by simp [leafCodes]; exact Or.inl h'')
    · exact Or.inr (by simp [leafCodes]; exact Or.inr h')

theorem containsKey_generate_codes (t : Node) (pre : List Char)
    (acc : List (Char × List Char)) (s : Char) :
    containsKey s (generate_codes t pre acc) = true
      ↔ s ∈ Node.syms t ∨ containsKey s acc = true := by
  induction t generalizing pre acc with
  | leaf p s' =>
    show containsKey s (mapInsert s' pre acc) = true ↔ _
    rw [containsKey_mapInsert]
    simp [Node.syms]
    tauto
  | internal p a b iha ihb =>
    show containsKey s (generate_codes b _ (generate_codes a _ acc)) = true ↔ _
    rw [ihb, iha]
    simp [Node.syms]
    tauto

theorem keysNodup_generate_codes (t : Node) (pre : List Char)
    (acc : List (Char × List Char)) (h : (acc.map Prod.fst).Nodup) :
    ((generate_codes t pre acc).map Prod.fst).Nodup := by
  induction t generalizing pre acc with
  | leaf p s => exact keysNodup_mapInsert s pre acc h
  | internal p a b iha ihb => exact ihb _ _ (iha _ _ h)

theorem leafCodes_extend (t : Node) (pre : List Char) (s : Char) (c : List Char)
    (h : (s, c) ∈ leafCodes t pre) : ∃ suf, c = pre ++ suf := by
  induction t generalizing pre with
  | leaf p s' =>
    simp only [leafCodes, List.mem_singleton, Prod.mk.injEq] at h
    exact ⟨[], by rw [← h.2]; simp⟩
  | internal p a b iha ihb =>
    simp only [leafCodes, List.mem_append] at h
    rcases h with h | h
    · obtain ⟨suf, rfl⟩ := iha _ h
      exact ⟨'0' :: suf, by simp⟩
    · obtain ⟨suf, rfl⟩ := ihb _ h
      exact ⟨'1' :: suf, by simp⟩

theorem appendPrefixIff (p a b : List Char) : (p ++ a <+: p ++ b) ↔ (a <+: b) := by
  induction p with
  | nil => simp
  | cons x p ih => simp [List.cons_prefix_cons, ih]

theorem branchIncomp (p x y : List Char) : ¬ ((p ++ ['0']) ++ x <+: (p ++ ['1']) ++ y) := by
  intro h
  rw [List.append_assoc, List.append_assoc, appendPrefixIff] at h
  rw [List.singleton_append, List.singleton_append, List.cons_prefix_cons] at h
  exact absurd h.1 (by decide)

/-- Codes of distinct leaves of a tree are mutually incomparable for the
prefix order. -/
theorem leafCodes_pairwise (t : Node) (pre : List Char) :
    (leafCodes t pre).Pairwise
      (fun e₁ e₂ => ¬ (e₁.2 <+: e₂.2) ∧ ¬ (e₂.2 <+: e₁.2)) := by
  induction t generalizing pre with
  | leaf p s => simp [leafCodes]
  | internal q a b iha ihb =>
    show ((leafCodes a (pre ++ ['0'])) ++ (leafCodes b (pre ++ ['1']))).Pairwise _
    rw [List.pairwise_append]
    refine ⟨iha _, ihb _, fun e₁ h₁ e₂ h₂ => ?_⟩
    obtain ⟨s₁, c₁⟩ := e₁
    obtain ⟨s₂, c₂⟩ := e₂
    obtain ⟨suf₁, rfl⟩ := leafCodes_extend a _ s₁ c₁ h₁
    obtain ⟨suf₂, rfl⟩ := leafCodes_extend b _ s₂ c₂ h₂
    exact ⟨branchIncomp pre suf₁ suf₂, fun hc => by
      rw [List.append_assoc, List.append_assoc, appendPrefixIff] at hc
      rw [List.singleton_append, List.singleton_append, List.cons_prefix_cons] at hc
      exact absurd hc.1 (by decide)⟩

/-- Every code of a leaf of an internal node strictly extends the initial
code. -/
theorem leafCodes_internal_length (p : ℚ) (a b : Node) (pre : List Char)
    (s : Char) (c : List Char) (h : (s, c) ∈ leafCodes (Node.internal p a b) pre) :
    pre.length + 1 ≤ c.length := by
  simp only [leafCodes, List.mem_append] at h
  rcases h with h | h
  · obtain ⟨suf, rfl⟩ := leafCodes_extend a _ s c h
    simp
  · obtain ⟨suf, rfl⟩ := leafCodes_extend b _ s c h
    simp

/-! ## Claim theorems -/

/-- C1: for every non-empty probability table, the code table produced by
`huffman` is prefix-free: the bitstrings of two distinct symbols are never in
the prefix relation (in particular neither is a proper prefix of the other). -/
theorem huffman_prefix_free (f : List (Char × ℚ)) (hne : f ≠ []) :
    ∃ m, huffman f = some m ∧
      ∀ s₁ c₁ s₂ c₂, (s₁, c₁) ∈ m → (s₂, c₂) ∈ m → s₁ ≠ s₂ → ¬ (c₁ <+: c₂) := by
  obtain ⟨root, hh, _, _⟩ := huffman_structure f hne
  refine ⟨generate_codes root [] [], hh, fun s₁ c₁ s₂ c₂ h₁ h₂ hs hpre => ?_⟩
  rcases mem_generate_codes root [] [] _ h₁ with h₁' | h₁'
  · simp at h₁'
  rcases mem_generate_codes root [] [] _ h₂ with h₂' | h₂'
  · simp at h₂'
  have hsym : Symmetric (fun e₁ e₂ : Char × List Char =>
      ¬ (e₁.2 <+: e₂.2) ∧ ¬ (e₂.2 <+: e₁.2)) := fun a b hab => ⟨hab.2, hab.1⟩
  have hne' : (s₁, c₁) ≠ (s₂, c₂) := fun hc => hs (congrArg Prod.fst hc)
  have := (leafCodes_pairwise root []).forall hsym h₁' h₂' hne'
  exact this.1 hpre

theorem huffman_prefix_free_witness :
    (([(('A' : Char), (1 : ℚ)/2), ('B', 1/4), ('C', 1/4)] : List (Char × ℚ)) ≠ []) ∧
    (∃ m, huffman [(('A' : Char), (1 : ℚ)/2), ('B', 1/4), ('C', 1/4)] = some m ∧
      ∀ s₁ c₁ s₂ c₂, (s₁, c₁) ∈ m → (s₂, c₂) ∈ m → s₁ ≠ s₂ → ¬ (c₁ <+: c₂)) :=
  ⟨List.cons_ne_nil _ _, huffman_prefix_free _ (List.cons_ne_nil _ _)⟩

/-- C2, counterexample: on the single-symbol table the lone symbol receives
the empty bitstring, not a non-empty code. -/
theorem huffman_single_empty_code :
    huffman [(('A' : Char), (1 : ℚ))] = some [('A', ([] : List Char))] := rfl

/-- C2, amended: every code in the table produced by `huffman` on a table of
at least two symbols has length at least 1; the single-symbol table instead
receives the empty bitstring (see `huffman_single_empty_code`). -/
theorem huffman_codes_nonempty (f : List (Char × ℚ)) (h2 : 2 ≤ f.length) :
    ∃ m, huffman f = some m ∧ ∀ s c, (s, c) ∈ m → 1 ≤ c.length := by
  obtain ⟨root, hh, _, hint⟩ := huffman_structure f
    (by intro h; rw [h] at h2; simp at h2)
  obtain ⟨p, a, b, rfl⟩ := hint h2
  refine ⟨_, hh, fun s c hm => ?_⟩
  rcases mem_generate_codes _ [] [] _ hm with h' | h'
  · simp at h'
  · simpa using leafCodes_internal_length p a b [] s c h'

theorem huffman_codes_nonempty_witness :
    (2 ≤ ([(('A' : Char), (1 : ℚ)/2), ('B', 1/4), ('C', 1/4)] : List (Char × ℚ)).length) ∧
    (∃ m, huffman [(('A' : Char), (1 : ℚ)/2), ('B', 1/4), ('C', 1/4)] = some m ∧
      ∀ s c, (s, c) ∈ m → 1 ≤ c.length) :=
  ⟨by simp, huffman_codes_nonempty _ (by simp)⟩

/-- C3, counterexample: on the empty probability table `huffman` panics (the
`heap.pop().unwrap()` of an empty heap, modelled by `none`); it does not
return a typed `EmptyAlphabet` failure value — indeed `SymbolMappingError`
has no such variant and `huffman`'s return type has no error channel at all. -/
theorem huffman_empty_not_error : huffman ([] : List (Char × ℚ)) = none := rfl

/-- C3, amended: `huffman` applied to an empty probability table panics on
`unwrap` (modelled by the `none` result) instead of reporting a typed
`EmptyAlphabet` error; on every non-empty table it returns a code table. -/
theorem huffman_empty_panics :
    huffman ([] : List (Char × ℚ)) = none ∧
    ∀ f : List (Char × ℚ), f ≠ [] → (huffman f).isSome = true := by
  refine ⟨rfl, fun f hne => ?_⟩
  obtain ⟨root, hh, _, _⟩ := huffman_structure f hne
  rw [hh]
  rfl

theorem huffman_empty_panics_witness :
    huffman ([] : List (Char × ℚ)) = none ∧
    (huffman [(('A' : Char), (1 : ℚ))]).isSome = true :=
  ⟨huffman_empty_panics.1, huffman_empty_panics.2 _ (List.cons_ne_nil _ _)⟩

/-- C8: for every non-empty probability table, the key set of the produced
code table is exactly the key set of the table, and each symbol occurs as a
key exactly once. -/
theorem huffman_keys (f : List (Char × ℚ)) (hne : f ≠ []) :
    ∃ m, huffman f = some m ∧
      (∀ s : Char, containsKey s m = true ↔ s ∈ f.map Prod.fst) ∧
      (m.map Prod.fst).Nodup := by
  obtain ⟨root, hh, hsyms, _⟩ := huffman_structure f hne
  refine ⟨_, hh, fun s => ?_, keysNodup_generate_codes root [] [] (by simp)⟩
  rw [containsKey_generate_codes, hsyms]
  show s ∈ ((f.map Prod.fst : List Char) : Multiset Char) ∨ containsKey s [] = true ↔ _
  rw [Multiset.mem_coe]
  simp [containsKey, mapGet]

theorem huffman_keys_witness :
    (([(('A' : Char), (1 : ℚ)/2), ('B', 1/4), ('C', 1/4)] : List (Char × ℚ)) ≠ []) ∧
    (∃ m, huffman [(('A' : Char), (1 : ℚ)/2), ('B', 1/4), ('C', 1/4)] = some m ∧
      (∀ s : Char, containsKey s m = true
        ↔ s ∈ ([(('A' : Char), (1 : ℚ)/2), ('B', 1/4), ('C', 1/4)]
          : List (Char × ℚ)).map Prod.fst) ∧
      (m.map Prod.fst).Nodup) :=
  ⟨List.cons_ne_nil _ _, huffman_keys _ (List.cons_ne_nil _ _)⟩

/-- C7, counterexample: two probability tables with identical contents — equal
as multisets of (symbol, probability) pairs — but different iteration orders
produce different code tables when probabilities tie: the tie between equal
probabilities is resolved by heap position, which depends on the order in
which the `HashMap` yields its entries (an order Rust does not promise to be
a function of contents plus insertion order). -/
theorem huffman_order_dependent :
    (([(('A' : Char), (1:ℚ)/3), ('B', 1/3), ('C', 1/3)] : List (Char × ℚ))
        : Multiset (Char × ℚ))
      = (([(('B' : Char), (1:ℚ)/3), ('A', 1/3), ('C', 1/3)] : List (Char × ℚ))
        : Multiset (Char × ℚ)) ∧
    huffman [(('A' : Char), (1:ℚ)/3), ('B', 1/3), ('C', 1/3)]
      = some [('C', ['0']), ('A', ['1', '0']), ('B', ['1', '1'])] ∧
    huffman [(('B' : Char), (1:ℚ)/3), ('A', 1/3), ('C', 1/3)]
      = some [('C', ['0']), ('B', ['1', '0']), ('A', ['1', '1'])] ∧
    mapGet 'A' [('C', (['0'] : List Char)), ('A', ['1', '0']), ('B', ['1', '1'])]
      ≠ mapGet 'A' [('C', (['0'] : List Char)), ('B', ['1', '0']), ('A', ['1', '1'])] := by
  refine ⟨by rw [Multiset.coe_eq_coe]; exact List.Perm.swap _ _ _, ?_, ?_, by decide⟩
  · simp +decide [huffman, heapFromList, rebuildGo, siftDown, siftDownRangeGo,
      siftDownBottomGo, siftDownToBottom, siftUpGo, childSel, getN, nodeLE, nodeLT,
      mergeLoopGo, heapPop, heapPush, generate_codes, mapInsert, mapGet, Node.probability]
  · simp +decide [huffman, heapFromList, rebuildGo, siftDown, siftDownRangeGo,
      siftDownBottomGo, siftDownToBottom, siftUpGo, childSel, getN, nodeLE, nodeLT,
      mergeLoopGo, heapPop, heapPush, generate_codes, mapInsert, mapGet, Node.probability]

/-- C7, amended: `huffman` is deterministic as a function of the sequence of
(symbol, probability) pairs the map yields — identical iteration sequences
give identical trees and code tables (each concrete sequence evaluates to one
fixed table, as the two sample runs show); but on tied probabilities the
result genuinely depends on that sequence (see `huffman_order_dependent`), so
identical contents and insertion order alone do not determine the table. -/
theorem huffman_deterministic_per_sequence :
    (∀ l₁ l₂ : List (Char × ℚ), l₁ = l₂ → huffman l₁ = huffman l₂) ∧
    huffman [(('A' : Char), (1:ℚ)/3), ('B', 1/3), ('C', 1/3)]
      = some [('C', ['0']), ('A', ['1', '0']), ('B', ['1', '1'])] ∧
    huffman [(('B' : Char), (1:ℚ)/3), ('A', 1/3), ('C', 1/3)]
      = some [('C', ['0']), ('B', ['1', '0']), ('A', ['1', '1'])] := by
  refine ⟨fun l₁ l₂ h => by rw [h], ?_, ?_⟩
  · simp +decide [huffman, heapFromList, rebuildGo, siftDown, siftDownRangeGo,
      siftDownBottomGo, siftDownToBottom, siftUpGo, childSel, getN, nodeLE, nodeLT,
      mergeLoopGo, heapPop, heapPush, generate_codes, mapInsert, mapGet, Node.probability]
  · simp +decide [huffman, heapFromList, rebuildGo, siftDown, siftDownRangeGo,
      siftDownBottomGo, siftDownToBottom, siftUpGo, childSel, getN, nodeLE, nodeLT,
      mergeLoopGo, heapPop, heapPush, generate_codes, mapInsert, mapGet, Node.probability]

theorem huffman_deterministic_per_sequence_witness :
    huffman [(('A' : Char), (1:ℚ)/2), ('B', 1/2)]
      = huffman [(('A' : Char), (1:ℚ)/2), ('B', 1/2)] :=
  huffman_deterministic_per_sequence.1 _ _ rfl

/-! ## Lemmas about `entropy` -/

theorem fadd_nan_right (x : FVal) : fadd x .nan = .nan := by cases x <;> rfl

theorem fadd_nan_left (x : FVal) : fadd .nan x = .nan := by cases x <;> rfl

/-- Once the accumulator is NaN, the `entropy` loop stays NaN. -/
theorem entropy_foldl_nan (f : List (Char × ℚ)) :
    f.foldl (fun total p => fadd total (fmul p.2 (fneg (flog2 p.2)))) FVal.nan
      = FVal.nan := by
  induction f with
  | nil => rfl
  | cons a t ih =>
    show t.foldl _ (fadd FVal.nan _) = _
    rw [fadd_nan_left]
    exact ih

/-- The contribution of a zero entry is `0 * -(-∞) = 0 * ∞ = NaN`. -/
theorem contribution_zero_nan :
    fmul 0 (fneg (flog2 0)) = FVal.nan := by
  rw [flog2, if_neg (by norm_num), if_pos rfl]
  show fmul 0 FVal.inf = FVal.nan
  rw [fmul, if_neg (by norm_num), if_neg (by norm_num)]

/-- The contribution of a positive entry is the finite value
`p * -(log2 p)`. -/
theorem contribution_pos (p : ℚ) (hp : 0 < p) :
    fmul p (fneg (flog2 p)) = FVal.num ((p : ℝ) * (-(Real.logb 2 (p : ℝ)))) := by
  rw [flog2, if_neg (by exact not_lt_of_gt hp), if_neg (by exact ne_of_gt hp)]
  rfl

/-- C4, counterexample: an entry with probability exactly `0` makes `entropy`
return NaN (`0.0 * -(0.0f32.log2()) = 0.0 * ∞ = NaN`), not `0`. -/
theorem entropy_zero_entry_nan : entropy [(('A' : Char), (0 : ℚ))] = FVal.nan := by
  show fadd (FVal.num 0) (fmul 0 (fneg (flog2 0))) = FVal.nan
  rw [contribution_zero_nan, fadd_nan_right]

/-- C4, amended: `entropy` of the empty table is `0`; a table containing an
entry of probability exactly `0` yields NaN (the `0 · ∞` of IEEE arithmetic,
nowhere guarded by the code); and on a table of strictly positive
probabilities it is the finite sum of `-p·log2 p` over all entries. -/
theorem entropy_spec :
    entropy ([] : List (Char × ℚ)) = FVal.num 0 ∧
    (∀ (f : List (Char × ℚ)) (s : Char), (s, (0 : ℚ)) ∈ f → entropy f = FVal.nan) ∧
    (∀ f : List (Char × ℚ), (∀ p ∈ f, 0 < p.2) →
      entropy f
        = FVal.num ((f.map fun p => (p.2 : ℝ) * (-(Real.logb 2 (p.2 : ℝ)))).sum)) := by
  refine ⟨rfl, ?_, ?_⟩
  · suffices h : ∀ (f : List (Char × ℚ)) (total : FVal) (s : Char), (s, (0 : ℚ)) ∈ f →
        f.foldl (fun total p => fadd total (fmul p.2 (fneg (flog2 p.2)))) total
          = FVal.nan by
      intro f s hf
      exact h f (FVal.num 0) s hf
    intro f
    induction f with
    | nil => intro total s h; simp at h
    | cons a t ih =>
      intro total s h
      rcases List.mem_cons.mp h with h | h
      · show t.foldl _ (fadd total (fmul a.2 (fneg (flog2 a.2)))) = _
        have ha : a.2 = 0 := by rw [← h]
        rw [ha, contribution_zero_nan, fadd_nan_right]
        exact entropy_foldl_nan t
      · exact ih _ s h
  · suffices h : ∀ (f : List (Char × ℚ)) (total : ℝ), (∀ p ∈ f, 0 < p.2) →
        f.foldl (fun total p => fadd total (fmul p.2 (fneg (flog2 p.2)))) (FVal.num total)
          = FVal.num (total + (f.map fun p => (p.2 : ℝ) * (-(Real.logb 2 (p.2 : ℝ)))).sum) by
      intro f hf
      have := h f 0 hf
      rwa [zero_add] at this
    intro f
    induction f with
    | nil => intro total h; simp [entropy]
    | cons a t ih =>
      intro total h
      show t.foldl _ (fadd (FVal.num total) (fmul a.2 (fneg (flog2 a.2)))) = _
      rw [contribution_pos a.2 (h a (List.mem_cons_self _ _))]
      show t.foldl _ (FVal.num (total + (a.2 : ℝ) * (-(Real.logb 2 (a.2 : ℝ))))) = _
      rw [ih _ (fun p hp => h p (List.mem_cons_of_mem _ hp))]
      rw [List.map_cons, List.sum_cons, add_assoc]

theorem entropy_spec_witness :
    entropy [(('A' : Char), (0 : ℚ))] = FVal.nan ∧
    entropy [(('A' : Char), (1 : ℚ))]
      = FVal.num (([(('A' : Char), (1 : ℚ))].map
          fun p => (p.2 : ℝ) * (-(Real.logb 2 (p.2 : ℝ)))).sum) :=
  ⟨entropy_spec.2.1 _ 'A' (List.mem_singleton.mpr rfl),
   entropy_spec.2.2 _ (by intro p hp; rw [List.mem_singleton.mp hp]; norm_num)⟩

/-! ## Lemmas about `expected` -/

theorem containsKey_cons (k s : Char) (v : α) (m : List (Char × α)) :
    containsKey s ((k, v) :: m) = true ↔ k = s ∨ containsKey s m = true := by
  unfold containsKey
  show (if k = s then some v else mapGet s m).isSome = true ↔ _
  by_cases h : k = s <;> simp [h]

theorem containsKey_iff_mem_keys (s : Char) (m : List (Char × α)) :
    containsKey s m = true ↔ s ∈ m.map Prod.fst := by
  induction m with
  | nil => simp [containsKey, mapGet]
  | cons a t ih =>
    obtain ⟨k, v⟩ := a
    rw [containsKey_cons]
    simp [ih, eq_comm]

/-- When every symbol of `f` has a code, the first loop of `expected` returns
the accumulated sum `t + Σ p(s)·|code(s)|`. -/
theorem expectedGo_ok (c : List (Char × List Char)) (f : List (Char × ℚ)) (t : ℚ)
    (h : ∀ s, containsKey s f = true → containsKey s c = true) :
    expectedGo c f t
      = .ok (t + (f.map fun p => p.2 * (((mapGet p.1 c).getD []).length : ℚ)).sum) := by
  induction f generalizing t with
  | nil => simp [expectedGo]
  | cons a t' ih =>
    obtain ⟨s, freq⟩ := a
    have hc : containsKey s c = true :=
      h s ((containsKey_cons s s freq t').mpr (Or.inl rfl))
    obtain ⟨code, hcode⟩ := Option.isSome_iff_exists.mp hc
    show (match mapGet s c with
      | none => Except.error (SymbolMappingError.SymbolNotFoundInCodes s)
      | some code => expectedGo c t' (t + freq * (code.length : ℚ))) = _
    rw [hcode]
    show expectedGo c t' (t + freq * (code.length : ℚ)) = _
    rw [ih _ (fun s' hs' => h s' ((containsKey_cons s s' freq t').mpr (Or.inr hs')))]
    rw [List.map_cons, List.sum_cons, hcode, Option.getD_some, add_assoc]

/-- When some symbol of `f` has no code, the first loop of `expected` fails
with `SymbolNotFoundInCodes` naming such a symbol. -/
theorem expectedGo_missing (c : List (Char × List Char)) (f : List (Char × ℚ)) : ∀ t : ℚ,
    (∃ s, containsKey s f = true ∧ containsKey s c = false) →
    ∃ s', expectedGo c f t = .error (.SymbolNotFoundInCodes s') ∧
      containsKey s' f = true ∧ containsKey s' c = false := by
  induction f with
  | nil =>
    intro t h
    obtain ⟨s, hs, _⟩ := h
    rw [show containsKey s ([] : List (Char × ℚ)) = false from rfl] at hs
    exact absurd hs (by simp)
  | cons a t' ih =>
    intro t h
    obtain ⟨s, freq⟩ := a
    cases hcode : mapGet s c with
    | none =>
      refine ⟨s, ?_, (containsKey_cons s s freq t').mpr (Or.inl rfl), ?_⟩
      · show (match mapGet s c with
          | none => Except.error (SymbolMappingError.SymbolNotFoundInCodes s)
          | some code => expectedGo c t' (t + freq * (code.length : ℚ))) = _
        rw [hcode]
      · unfold containsKey
        rw [hcode]
        rfl
    | some code =>
      obtain ⟨s₀, hs₀f, hs₀c⟩ := h
      have hs₀t' : containsKey s₀ t' = true := by
        rcases (containsKey_cons s s₀ freq t').mp hs₀f with heq | hmem
        · rw [← heq] at hs₀c
          rw [show containsKey s c = (mapGet s c).isSome from rfl, hcode] at hs₀c
          exact absurd hs₀c (by simp)
        · exact hmem
      obtain ⟨s', h1, h2, h3⟩ := ih (t + freq * (code.length : ℚ)) ⟨s₀, hs₀t', hs₀c⟩
      refine ⟨s', ?_, (containsKey_cons s s' freq t').mpr (Or.inr h2), h3⟩
      show (match mapGet s c with
        | none => Except.error (SymbolMappingError.SymbolNotFoundInCodes s)
        | some code => expectedGo c t' (t + freq * (code.length : ℚ))) = _
      rw [hcode]
      exact h1

/-- The first loop only returns `Ok` when every symbol of `f` has a code. -/
theorem expectedGo_ok_keys (c : List (Char × List Char)) (f : List (Char × ℚ)) (t q : ℚ)
    (h : expectedGo c f t = .ok q) :
    ∀ s, containsKey s f = true → containsKey s c = true := by
  intro s hs
  by_cases hc : containsKey s c = true
  · exact hc
  · obtain ⟨s', h1, _, _⟩ := expectedGo_missing c f t ⟨s, hs, by simpa using hc⟩
    rw [h1] at h
    exact absurd h (by simp)

theorem firstExtra_none_iff (f : List (Char × ℚ)) (ks : List Char) :
    firstExtra f ks = none ↔ ∀ s ∈ ks, containsKey s f = true := by
  induction ks with
  | nil => simp [firstExtra]
  | cons k t ih =>
    show (if containsKey k f then firstExtra f t else some k) = none ↔ _
    by_cases hk : containsKey k f = true
    · rw [if_pos (by simpa using hk)]
      simp [ih, hk]
    · rw [if_neg (by simpa using hk)]
      simp [hk]

theorem firstExtra_some_spec (f : List (Char × ℚ)) (ks : List Char) (s : Char)
    (h : firstExtra f ks = some s) : s ∈ ks ∧ containsKey s f = false := by
  induction ks with
  | nil => simp [firstExtra] at h
  | cons k t ih =>
    rw [show firstExtra f (k :: t)
      = if containsKey k f then firstExtra f t else some k from rfl] at h
    by_cases hk : containsKey k f = true
    · rw [if_pos (by simpa using hk)] at h
      obtain ⟨h1, h2⟩ := ih h
      exact ⟨List.mem_cons_of_mem _ h1, h2⟩
    · rw [if_neg (by simpa using hk)] at h
      obtain rfl := Option.some_inj.mp h
      exact ⟨List.mem_cons_self _ _, by simpa using hk⟩

/-- C5, counterexample: with `f = {A}` and `c = {B}` both kinds of mismatch
are present, yet `expected` reports only `SymbolNotFoundInCodes('A')`: the
symbol `B` of the code table absent from the probability table is *not*
reported as `ExtraSymbolInCodes('B')`, because the first loop returns early
(the `?` operator) before the extra-symbol check runs. -/
theorem expected_shortcircuit :
    expected [(('A' : Char), (1 : ℚ))] [(('B' : Char), (['0'] : List Char))]
      = .error (.SymbolNotFoundInCodes 'A') ∧
    expected [(('A' : Char), (1 : ℚ))] [(('B' : Char), (['0'] : List Char))]
      ≠ .error (.ExtraSymbolInCodes 'B') := by
  refine ⟨rfl, fun hc => ?_⟩
  rw [show expected [(('A' : Char), (1 : ℚ))] [(('B' : Char), (['0'] : List Char))]
    = .error (.SymbolNotFoundInCodes 'A') from rfl] at hc
  exact SymbolMappingError.noConfusion (Except.error.inj hc)

/-- C5, amended: `expected` succeeds exactly when the two key sets coincide;
when some probability-table symbol has no code it fails with
`SymbolNotFoundInCodes` naming one such symbol (the first in iteration
order, short-circuiting — not every missing symbol, and the extra-symbol
check never runs); only when every probability-table symbol has a code does
a surplus code-table symbol get reported as `ExtraSymbolInCodes`. -/
theorem expected_validation (f : List (Char × ℚ)) (c : List (Char × List Char)) :
    ((∃ q, expected f c = .ok q) ↔
      ((∀ s, containsKey s f = true → containsKey s c = true) ∧
       (∀ s, containsKey s c = true → containsKey s f = true))) ∧
    ((∃ s, containsKey s f = true ∧ containsKey s c = false) →
      ∃ s', expected f c = .error (.SymbolNotFoundInCodes s') ∧
        containsKey s' f = true ∧ containsKey s' c = false) ∧
    ((∀ s, containsKey s f = true → containsKey s c = true) →
      (∃ s, containsKey s c = true ∧ containsKey s f = false) →
      ∃ s', expected f c = .error (.ExtraSymbolInCodes s') ∧
        containsKey s' c = true ∧ containsKey s' f = false) := by
  refine ⟨⟨?_, ?_⟩, ?_, ?_⟩
  · rintro ⟨q, hq⟩
    unfold expected at hq
    cases hgo : expectedGo c f 0 with
    | error e => rw [hgo] at hq; simp at hq
    | ok total =>
      rw [hgo] at hq
      refine ⟨expectedGo_ok_keys c f 0 total hgo, fun s hs => ?_⟩
      cases hfe : firstExtra f (c.map Prod.fst) with
      | some s' => rw [hfe] at hq; simp at hq
      | none =>
        have := (firstExtra_none_iff f _).mp hfe s
          ((containsKey_iff_mem_keys s c).mp hs)
        exact this
  · rintro ⟨h1, h2⟩
    have hgo := expectedGo_ok c f 0 h1
    have hfe : firstExtra f (c.map Prod.fst) = none :=
      (firstExtra_none_iff f _).mpr
        (fun s hs => h2 s ((containsKey_iff_mem_keys s c).mpr hs))
    refine ⟨0 + (f.map fun p => p.2 * (((mapGet p.1 c).getD []).length : ℚ)).sum, ?_⟩
    unfold expected
    rw [hgo]
    show (match firstExtra f (c.map Prod.fst) with
      | some symbol => Except.error (SymbolMappingError.ExtraSymbolInCodes symbol)
      | none => Except.ok _) = _
    rw [hfe]
  · intro hmiss
    obtain ⟨s', h1, h2, h3⟩ := expectedGo_missing c f 0 hmiss
    refine ⟨s', ?_, h2, h3⟩
    unfold expected
    rw [h1]
  · intro hall hextra
    have hgo := expectedGo_ok c f 0 hall
    obtain ⟨s₀, hs₀c, hs₀f⟩ := hextra
    have hne : ¬ firstExtra f (c.map Prod.fst) = none := by
      intro hfe
      have := (firstExtra_none_iff f _).mp hfe s₀
        ((containsKey_iff_mem_keys s₀ c).mp hs₀c)
      rw [hs₀f] at this
      exact Bool.noConfusion this
    obtain ⟨s', hs'⟩ := Option.ne_none_iff_exists'.mp hne
    obtain ⟨hmem, hfalse⟩ := firstExtra_some_spec f _ s' hs'
    refine ⟨s', ?_, (containsKey_iff_mem_keys s' c).mpr hmem, hfalse⟩
    unfold expected
    rw [hgo]
    show (match firstExtra f (c.map Prod.fst) with
      | some symbol => Except.error (SymbolMappingError.ExtraSymbolInCodes symbol)
      | none => Except.ok _) = _
    rw [hs']

theorem expected_validation_witness :
    (∃ s', expected [(('A' : Char), (1 : ℚ))] [(('B' : Char), (['0'] : List Char))]
      = .error (.SymbolNotFoundInCodes s') ∧
      containsKey s' [(('A' : Char), (1 : ℚ))] = true ∧
      containsKey s' [(('B' : Char), (['0'] : List Char))] = false) ∧
    (∃ s', expected [(('A' : Char), (1 : ℚ))]
        [(('A' : Char), (['1'] : List Char)), ('B', ['0'])]
      = .error (.ExtraSymbolInCodes s') ∧
      containsKey s' [(('A' : Char), (['1'] : List Char)), ('B', ['0'])] = true ∧
      containsKey s' [(('A' : Char), (1 : ℚ))] = false) :=
  ⟨(expected_validation _ _).2.1 ⟨'A', by decide, by decide⟩,
   (expected_validation _ _).2.2
     (by
       intro s hs
       rw [containsKey_iff_mem_keys] at hs ⊢
       simp at hs ⊢
       tauto)
     ⟨'B', by decide, by decide⟩⟩

/-- C6: when the key sets agree, `expected` returns `Σ p(s)·|code(s)|`; on
the documented example the value is exactly `1.829`, hence within `10⁻⁶` of
it. -/
theorem expected_formula :
    (∀ (f : List (Char × ℚ)) (c : List (Char × List Char)),
      (∀ s, containsKey s f = true ↔ containsKey s c = true) →
      expected f c
        = .ok ((f.map fun p => p.2 * (((mapGet p.1 c).getD []).length : ℚ)).sum)) ∧
    (∃ q : ℚ,
      expected [(('A' : Char), (333 : ℚ)/1000), ('B', 83/1000), ('C', 166/1000),
          ('D', 416/1000)]
        [('A', ['1', '1']), ('C', ['1', '0', '1']), ('B', ['1', '0', '0']), ('D', ['0'])]
        = .ok q ∧
      |q - 1.829| ≤ 1/1000000) := by
  constructor
  · intro f c hiff
    have hgo := expectedGo_ok c f 0 (fun s hs => (hiff s).mp hs)
    have hfe : firstExtra f (c.map Prod.fst) = none :=
      (firstExtra_none_iff f _).mpr
        (fun s hs => (hiff s).mpr ((containsKey_iff_mem_keys s c).mpr hs))
    unfold expected
    rw [hgo]
    show (match firstExtra f (c.map Prod.fst) with
      | some symbol => Except.error (SymbolMappingError.ExtraSymbolInCodes symbol)
      | none => Except.ok _) = _
    rw [hfe, zero_add]
  · refine ⟨1829/1000, ?_, by norm_num⟩
    simp +decide [expected, expectedGo, mapGet, firstExtra, containsKey]
    norm_num

theorem expected_formula_witness :
    (∀ s, containsKey s [(('A' : Char), (333 : ℚ)/1000), ('B', 83/1000),
        ('C', 166/1000), ('D', 416/1000)] = true
      ↔ containsKey s [(('A' : Char), (['1', '1'] : List Char)), ('C', ['1', '0', '1']),
        ('B', ['1', '0', '0']), ('D', ['0'])] = true) ∧
    expected [(('A' : Char), (333 : ℚ)/1000), ('B', 83/1000), ('C', 166/1000),
        ('D', 416/1000)]
      [('A', ['1', '1']), ('C', ['1', '0', '1']), ('B', ['1', '0', '0']), ('D', ['0'])]
      = .ok (([(('A' : Char), (333 : ℚ)/1000), ('B', 83/1000), ('C', 166/1000),
          ('D', 416/1000)].map fun p => p.2 *
            (((mapGet p.1 [(('A' : Char), (['1', '1'] : List Char)), ('C', ['1', '0', '1']),
              ('B', ['1', '0', '0']), ('D', ['0'])]).getD []).length : ℚ)).sum) := by
  have hiff : ∀ s, containsKey s [(('A' : Char), (333 : ℚ)/1000), ('B', 83/1000),
      ('C', 166/1000), ('D', 416/1000)] = true
    ↔ containsKey s [(('A' : Char), (['1', '1'] : List Char)), ('C', ['1', '0', '1']),
      ('B', ['1', '0', '0']), ('D', ['0'])] = true := by
    intro s
    rw [containsKey_iff_mem_keys, containsKey_iff_mem_keys]
    simp
    tauto
  exact ⟨hiff, expected_formula.1 _ _ hiff⟩

/-- C10: when both kinds of mismatch are present at once, `expected` reports
a `SymbolNotFoundInCodes` error (for some probability-table symbol without a
code) and never an `ExtraSymbolInCodes` error: the whole first loop runs
before the extra-symbol loop is ever consulted. -/
theorem expected_missing_wins (f : List (Char × ℚ)) (c : List (Char × List Char))
    (_hf : f ≠ []) (_hc : c ≠ [])
    (hmiss : ∃ s, containsKey s f = true ∧ containsKey s c = false)
    (_hextra : ∃ s, containsKey s c = true ∧ containsKey s f = false) :
    (∃ s', expected f c = .error (.SymbolNotFoundInCodes s') ∧
      containsKey s' f = true ∧ containsKey s' c = false) ∧
    ∀ s', expected f c ≠ .error (.ExtraSymbolInCodes s') := by
  obtain ⟨s', h1, h2, h3⟩ := expectedGo_missing c f 0 hmiss
  have hexp : expected f c = .error (.SymbolNotFoundInCodes s') := by
    unfold expected
    rw [h1]
  refine ⟨⟨s', hexp, h2, h3⟩, fun s'' hcontra => ?_⟩
  rw [hexp] at hcontra
  exact SymbolMappingError.noConfusion (Except.error.inj hcontra)

theorem expected_missing_wins_witness :
    (([(('A' : Char), (1 : ℚ))] : List (Char × ℚ)) ≠ [] ∧
      ([(('B' : Char), (['0'] : List Char))] : List (Char × List Char)) ≠ []) ∧
    (∃ s', expected [(('A' : Char), (1 : ℚ))] [(('B' : Char), (['0'] : List Char))]
      = .error (.SymbolNotFoundInCodes s') ∧
      containsKey s' [(('A' : Char), (1 : ℚ))] = true ∧
      containsKey s' [(('B' : Char), (['0'] : List Char))] = false) ∧
    (∀ s', expected [(('A' : Char), (1 : ℚ))] [(('B' : Char), (['0'] : List Char))]
      ≠ .error (.ExtraSymbolInCodes s')) := by
  have h := expected_missing_wins [(('A' : Char), (1 : ℚ))]
    [(('B' : Char), (['0'] : List Char))] (List.cons_ne_nil _ _) (List.cons_ne_nil _ _)
    ⟨'A', by decide, by decide⟩ ⟨'B', by decide, by decide⟩
  exact ⟨⟨List.cons_ne_nil _ _, List.cons_ne_nil _ _⟩, h.1, h.2⟩

/-! ## Lemmas about `freq_to_prob` -/

theorem containsKey_false_iff (s : Char) (m : List (Char × α)) :
    containsKey s m = false ↔ ¬ s ∈ m.map Prod.fst := by
  rw [← containsKey_iff_mem_keys]
  cases h : containsKey s m <;> simp

theorem mapInsert_not_mem_append (k : Char) (v : α) (m : List (Char × α))
    (h : containsKey k m = false) : mapInsert k v m = m ++ [(k, v)] := by
  induction m with
  | nil => rfl
  | cons a t ih =>
    obtain ⟨ka, va⟩ := a
    have hmem := (containsKey_false_iff k ((ka, va) :: t)).mp h
    have hka : ¬ ka = k := by
      intro heq
      exact hmem (by simp [heq])
    show (if ka = k then (k, v) :: t else (ka, va) :: mapInsert k v t) = _
    rw [if_neg hka, ih ((containsKey_false_iff k t).mpr (fun hmt => hmem (by simp [hmt])))]
    rfl

/-- Folding `HashMap::insert` over pairwise-fresh keys appends the bindings
in iteration order. -/
theorem foldl_fresh_inserts (g : Char × ℤ → ℚ) (f : List (Char × ℤ)) :
    ∀ init : List (Char × ℚ), (f.map Prod.fst).Nodup →
    (∀ s ∈ f.map Prod.fst, containsKey s init = false) →
    f.foldl (fun d p => mapInsert p.1 (g p) d) init
      = init ++ f.map fun p => (p.1, g p) := by
  induction f with
  | nil => intro init _ _; simp
  | cons a t ih =>
    intro init hnd hdisj
    show t.foldl _ (mapInsert a.1 (g a) init) = _
    rw [mapInsert_not_mem_append _ _ _ (hdisj a.1 (by simp))]
    simp only [List.map_cons, List.nodup_cons] at hnd
    rw [ih (init ++ [(a.1, g a)]) hnd.2 ?_]
    · simp
    · intro s hs
      rw [containsKey_false_iff]
      simp only [List.map_append, List.mem_append]
      rintro (hsi | hsa)
      · exact absurd hsi ((containsKey_false_iff s init).mp
          (hdisj s (List.mem_cons_of_mem _ hs)))
      · simp at hsa
        rw [hsa] at hs
        exact hnd.1 hs

theorem sum_div_list (l : List (Char × ℤ)) (S : ℚ) :
    (l.map fun p => (p.2 : ℚ) / S).sum = (l.map fun p => (p.2 : ℚ)).sum / S := by
  induction l with
  | nil => simp
  | cons a t ih => simp [ih, add_div]

theorem cast_sum_list (l : List (Char × ℤ)) :
    (((l.map Prod.snd).sum : ℤ) : ℚ) = (l.map fun p => (p.2 : ℚ)).sum := by
  induction l with
  | nil => simp
  | cons a t ih => simp only [List.map_cons, List.sum_cons, Int.cast_add, ih]

theorem sum_counts_pos (l : List (Char × ℤ)) (h : ∀ p ∈ l, 1 ≤ p.2) (hne : l ≠ []) :
    1 ≤ (l.map Prod.snd).sum := by
  have hnn : ∀ l' : List (Char × ℤ), (∀ p ∈ l', 1 ≤ p.2) → 0 ≤ (l'.map Prod.snd).sum := by
    intro l' h'
    induction l' with
    | nil => simp
    | cons a t ih =>
      simp only [List.map_cons, List.sum_cons]
      have h1 := h' a (List.mem_cons_self _ _)
      have h2 := ih (fun p hp => h' p (List.mem_cons_of_mem _ hp))
      omega
  cases l with
  | nil => exact absurd rfl hne
  | cons a t =>
    simp only [List.map_cons, List.sum_cons]
    have h1 := h a (List.mem_cons_self _ _)
    have h2 := hnn t (fun p hp => h p (List.mem_cons_of_mem _ hp))
    omega

theorem mapGet_map_pairs (g : Char × ℤ → ℚ) (f : List (Char × ℤ)) (s : Char) (n : ℤ)
    (hnd : (f.map Prod.fst).Nodup) (hm : (s, n) ∈ f) :
    mapGet s (f.map fun p => (p.1, g p)) = some (g (s, n)) := by
  induction f with
  | nil => simp at hm
  | cons a t ih =>
    simp only [List.map_cons, List.nodup_cons] at hnd
    show (if a.1 = s then some (g a) else mapGet s (t.map fun p => (p.1, g p))) = _
    by_cases ha : a.1 = s
    · rw [if_pos ha]
      rcases List.mem_cons.mp hm with rfl | hmt
      · rfl
      · exact absurd (ha ▸ List.mem_map_of_mem Prod.fst hmt) hnd.1
    · rw [if_neg ha]
      rcases List.mem_cons.mp hm with rfl | hmt
      · exact absurd rfl ha
      · exact ih hnd.2 hmt

/-- C9: `freq_to_prob` of the empty table is the empty table (the division by
the zero total is never executed), and on a non-empty frequency table with
distinct keys and counts ≥ 1 (the `FrequencyTable` invariant) it divides each
count by the total, so the resulting probabilities sum to exactly 1. -/
theorem freq_to_prob_spec :
    freq_to_prob [] = [] ∧
    ∀ f : List (Char × ℤ), f ≠ [] → (f.map Prod.fst).Nodup → (∀ p ∈ f, 1 ≤ p.2) →
      ((freq_to_prob f).map Prod.snd).sum = 1 ∧
      ∀ s n, (s, n) ∈ f →
        mapGet s (freq_to_prob f)
          = some ((n : ℚ) / (((f.map Prod.snd).sum : ℤ) : ℚ)) := by
  refine ⟨rfl, fun f hne hnd hcounts => ?_⟩
  have hS : (0 : ℚ) < (((f.map Prod.snd).sum : ℤ) : ℚ) := by
    have := sum_counts_pos f hcounts hne
    exact_mod_cast Int.lt_of_lt_of_le Int.zero_lt_one this
  have hform : freq_to_prob f
      = f.map fun p => (p.1, (p.2 : ℚ) / (((f.map Prod.snd).sum : ℤ) : ℚ)) := by
    show f.foldl _ [] = _
    rw [foldl_fresh_inserts _ f [] hnd (fun s _ => rfl)]
    rfl
  constructor
  · rw [hform]
    rw [show (f.map fun p => (p.1, (p.2 : ℚ) / (((f.map Prod.snd).sum : ℤ) : ℚ))).map Prod.snd
      = f.map fun p => (p.2 : ℚ) / (((f.map Prod.snd).sum : ℤ) : ℚ) by
        rw [List.map_map]; rfl]
    rw [sum_div_list, ← cast_sum_list, div_self (ne_of_gt hS)]
  · intro s n hm
    rw [hform]
    exact mapGet_map_pairs _ f s n hnd hm

theorem freq_to_prob_spec_witness :
    freq_to_prob [] = [] ∧
    (([(('A' : Char), (2 : ℤ)), ('B', 2)] : List (Char × ℤ)) ≠ [] ∧
      (([(('A' : Char), (2 : ℤ)), ('B', 2)].map Prod.fst).Nodup) ∧
      (∀ p ∈ ([(('A' : Char), (2 : ℤ)), ('B', 2)] : List (Char × ℤ)), 1 ≤ p.2)) ∧
    (((freq_to_prob [(('A' : Char), (2 : ℤ)), ('B', 2)]).map Prod.snd).sum = 1 ∧
      ∀ s n, (s, n) ∈ ([(('A' : Char), (2 : ℤ)), ('B', 2)] : List (Char × ℤ)) →
        mapGet s (freq_to_prob [(('A' : Char), (2 : ℤ)), ('B', 2)])
          = some ((n : ℚ) / ((([(('A' : Char), (2 : ℤ)), ('B', 2)].map Prod.snd).sum
            : ℤ) : ℚ))) :=
  ⟨freq_to_prob_spec.1,
   ⟨List.cons_ne_nil _ _, by decide, by decide⟩,
   freq_to_prob_spec.2 _ (List.cons_ne_nil _ _) (by decide) (by decide)⟩

end HuffmanSpec
